import Mathlib

/-!
Shallow embedding of the External Command Serialization & Workspace Cache
subsystem of the zed-bianjiqi repository (Electron main process), together
with proofs of the specified properties.

The embedding models:
* the AppleScript command queue (`runAppleScript` / `processScriptQueue`)
  as a small-step state machine over `QueueState`;
* the Zed workspace path cache (`refreshZedWorkspaces`,
  `getZedWorkspacesCached`, `getZedWorkspacesFresh`) as explicit state
  passing over `CacheState`;
* the pure parsing/reconciliation functions (`parseZedWorkspaces`,
  `getZedWindows`, `activateZedWindowByName`, `loadProjects`) directly.
-/

namespace ZedBianjiqi

/-! ## Command queue (runAppleScript / processScriptQueue) -/

/-- `OSASCRIPT_TIMEOUT_MS` from the source (3000 ms). -/
def OSASCRIPT_TIMEOUT_MS : Nat := 3000

/-- Possible behaviours of one spawned `osascript` process: it returns with
an exit code, captured stdout/stderr after `duration` ms; or it hangs
forever; or spawning itself fails (the `error` event). -/
inductive ExtBehavior where
  | ret (code : Int) (stdout stderr : String) (duration : Nat)
  | hangs
  | spawnErr (msg : String)
deriving DecidableEq, Repr

/-- Error value passed to the request callback (`new Error('timeout')`,
`new Error(stderr)`, or the spawn error). -/
inductive CbError where
  | timeout
  | external (stderr : String)
  | spawn (msg : String)
deriving DecidableEq, Repr

/-- Whether the timeout timer fires and SIGKILLs the child
(`killed = true` in the source): the child hangs, or closes only after
`OSASCRIPT_TIMEOUT_MS` has elapsed. -/
def killedOf : ExtBehavior → Bool
  | .ret _ _ _ duration => decide (OSASCRIPT_TIMEOUT_MS < duration)
  | .hangs => true
  | .spawnErr _ => false

/-- The `(err, stdout)` pair the `close`/`error` handlers pass to the
request callback: `(Error('timeout'), '')` when killed, `(Error(stderr),
'')` on nonzero exit, `(null, stdout)` on success, `(err, '')` on spawn
error. -/
def outcomeOf : ExtBehavior → Option CbError × String
  | .ret code stdout stderr duration =>
      if OSASCRIPT_TIMEOUT_MS < duration then (some .timeout, "")
      else if code ≠ 0 then (some (.external stderr), "")
      else (none, stdout)
  | .hangs => (some .timeout, "")
  | .spawnErr msg => (some (.spawn msg), "")

/-- State of the executor: `pending` is `scriptQueue` (submission ids with
the behaviour their external call will have), `running` is the set of live
external processes, `isScriptRunning` the guard flag, `completed` the
callbacks already fired (in firing order, with their `(err, stdout)`
outcome), `nextId` the next submission id. -/
structure QueueState where
  pending : List (Nat × ExtBehavior)
  running : List (Nat × ExtBehavior)
  isScriptRunning : Bool
  completed : List (Nat × (Option CbError × String))
  nextId : Nat
deriving Repr

def initQueue : QueueState :=
  { pending := [], running := [], isScriptRunning := false, completed := [], nextId := 0 }

/-- `processScriptQueue()`: if a script is running or the queue is empty,
do nothing; otherwise set the flag, shift the head of the queue and spawn
its external process. -/
def processScriptQueue (s : QueueState) : QueueState :=
  if s.isScriptRunning then s
  else
    match s.pending with
    | [] => s
    | c :: rest =>
        { s with pending := rest, running := s.running ++ [c], isScriptRunning := true }

/-- `runAppleScript(script, callback)`: push onto `scriptQueue`, then call
`processScriptQueue()` synchronously. -/
def runAppleScript (s : QueueState) (b : ExtBehavior) : QueueState :=
  processScriptQueue
    { s with pending := s.pending ++ [(s.nextId, b)], nextId := s.nextId + 1 }

/-- The `close` (or `error`) handler for a live external process `c`:
clear the flag, remove the process, fire the callback with its outcome.
(The `setImmediate(processScriptQueue)` it schedules is the separate
`tick` step.) -/
def finishScript (s : QueueState) (pre post : List (Nat × ExtBehavior))
    (c : Nat × ExtBehavior) : QueueState :=
  { s with running := pre ++ post, isScriptRunning := false,
           completed := s.completed ++ [(c.1, outcomeOf c.2)] }

/-- One event of the executor: a submission (`runAppleScript`), a scheduled
`processScriptQueue` invocation (`setImmediate` callback), or the
completion handler of a live external process. -/
inductive QStep : QueueState → QueueState → Prop where
  | submit (s : QueueState) (b : ExtBehavior) : QStep s (runAppleScript s b)
  | tick (s : QueueState) : QStep s (processScriptQueue s)
  | finish (s : QueueState) (pre post : List (Nat × ExtBehavior)) (c : Nat × ExtBehavior)
      (h : s.running = pre ++ c :: post) : QStep s (finishScript s pre post c)

/-- Multi-step reachability between executor states. -/
def QSteps : QueueState → QueueState → Prop :=
  Relation.ReflTransGen QStep

/-- Reachable from the initial (empty) executor state. -/
def QReachable (s : QueueState) : Prop :=
  QSteps initQueue s

/-- Executor invariant: the guard flag counts the live external processes
(so at most one runs), and the completed, running and pending ids in order
are exactly the submission ids `0, 1, …, nextId - 1` in submission order. -/
def QInv (s : QueueState) : Prop :=
  s.running.length = (if s.isScriptRunning then 1 else 0) ∧
  s.completed.map Prod.fst ++ s.running.map Prod.fst ++ s.pending.map Prod.fst
    = List.range s.nextId

theorem qinv_init : QInv initQueue := by
  constructor <;> simp [initQueue]

theorem qinv_processScriptQueue {s : QueueState} (h : QInv s) :
    QInv (processScriptQueue s) := by
  obtain ⟨h1, h2⟩ := h
  unfold processScriptQueue
  by_cases hf : s.isScriptRunning
  · simp [hf]; exact ⟨h1, h2⟩
  · simp only [hf, if_neg]
    cases hp : s.pending with
    | nil => exact ⟨h1, h2⟩
    | cons c rest =>
        simp only [hf, if_false] at h1
        have hrun : s.running = [] := List.length_eq_zero.mp h1
        refine ⟨by simp [hrun], ?_⟩
        simp only [hrun, hp] at h2 ⊢
        simpa using h2

theorem qinv_runAppleScript {s : QueueState} (h : QInv s) (b : ExtBehavior) :
    QInv (runAppleScript s b) := by
  obtain ⟨h1, h2⟩ := h
  apply qinv_processScriptQueue
  refine ⟨h1, ?_⟩
  simp only [List.map_append]
  rw [List.range_succ, ← h2]
  simp

theorem qinv_finishScript {s : QueueState} (h : QInv s)
    (pre post : List (Nat × ExtBehavior)) (c : Nat × ExtBehavior)
    (hr : s.running = pre ++ c :: post) :
    QInv (finishScript s pre post c) := by
  obtain ⟨h1, h2⟩ := h
  have hlen : s.running.length = 1 := by
    rw [hr] at h1 ⊢
    by_cases hf : s.isScriptRunning
    · simpa [hf] using h1
    · simp [hf] at h1
  -- with exactly one live process, `pre` and `post` are both empty
  rw [hr] at hlen
  simp [List.length_append] at hlen
  have hpre1 : pre = [] := List.length_eq_zero.mp (by omega)
  have hpost1 : post = [] := List.length_eq_zero.mp (by omega)
  subst hpre1; subst hpost1
  constructor
  · simp [finishScript]
  · simp only [finishScript, List.map_append]
    rw [hr] at h2
    simpa using h2

theorem qinv_step {s t : QueueState} (h : QInv s) (hst : QStep s t) : QInv t := by
  cases hst with
  | submit b => exact qinv_runAppleScript h b
  | tick => exact qinv_processScriptQueue h
  | finish pre post c hr => exact qinv_finishScript h pre post c hr

theorem qinv_steps {s t : QueueState} (h : QInv s) (hst : QSteps s t) : QInv t := by
  induction hst with
  | refl => exact h
  | tail _ hstep ih => exact qinv_step ih hstep

theorem qinv_reachable {s : QueueState} (h : QReachable s) : QInv s :=
  qinv_steps qinv_init h

/-- A state in which every submitted request has completed. -/
def QDrained (s : QueueState) : Prop :=
  s.pending = [] ∧ s.running = [] ∧ s.isScriptRunning = false

/-- From any idle invariant state, ticking and finishing drains the queue
without accepting new submissions. -/
theorem qdrain_idle :
    ∀ n (s : QueueState), s.pending.length = n → QInv s →
      s.isScriptRunning = false →
      ∃ t, QSteps s t ∧ QDrained t ∧ t.nextId = s.nextId := by
  intro n
  induction n with
  | zero =>
      intro s hlen hinv hflag
      have hpend : s.pending = [] := List.length_eq_zero.mp hlen
      have hrun : s.running = [] := by
        have := hinv.1
        rw [hflag] at this
        simpa using List.length_eq_zero.mp (by simpa using this)
      exact ⟨s, Relation.ReflTransGen.refl, ⟨hpend, hrun, hflag⟩, rfl⟩
  | succ n ih =>
      intro s hlen hinv hflag
      have hrun : s.running = [] := by
        have := hinv.1
        rw [hflag] at this
        simpa using List.length_eq_zero.mp (by simpa using this)
      cases hp : s.pending with
      | nil => simp [hp] at hlen
      | cons c rest =>
          -- a `processScriptQueue` invocation starts `c`
          have hproc : processScriptQueue s
              = { s with pending := rest, running := s.running ++ [c],
                         isScriptRunning := true } := by
            unfold processScriptQueue
            simp [hflag, hp]
          set s1 : QueueState :=
            { s with pending := rest, running := s.running ++ [c],
                     isScriptRunning := true } with hs1
          have hstep1 : QStep s s1 := by
            have := QStep.tick s
            rwa [hproc] at this
          -- the external process of `c` finishes
          have hstep2 : QStep s1 (finishScript s1 [] [] c) := by
            apply QStep.finish s1 [] [] c
            simp [hs1, hrun]
          have hinv2 : QInv (finishScript s1 [] [] c) :=
            qinv_step (qinv_step hinv hstep1) hstep2
          have hlen2 : (finishScript s1 [] [] c).pending.length = n := by
            simp only [finishScript, hs1]
            simp only [hp] at hlen
            simpa using Nat.succ_injective hlen
          obtain ⟨t, hsteps, hdr, hid⟩ :=
            ih (finishScript s1 [] [] c) hlen2 hinv2 (by simp [finishScript])
          refine ⟨t, ?_, hdr, ?_⟩
          · exact Relation.ReflTransGen.head hstep1
              (Relation.ReflTransGen.head hstep2 hsteps)
          · simpa [finishScript, hs1] using hid

/-- From any invariant state there is an execution that completes every
submitted request. -/
theorem qdrain :
    ∀ s : QueueState, QInv s →
      ∃ t, QSteps s t ∧ QDrained t ∧ t.nextId = s.nextId := by
  intro s hinv
  by_cases hflag : s.isScriptRunning
  · have hrunlen : s.running.length = 1 := by
      have := hinv.1
      rwa [if_pos hflag] at this
    cases hr : s.running with
    | nil => simp [hr] at hrunlen
    | cons c rest =>
        have hrest : rest = [] := by
          simp [hr] at hrunlen
          exact hrunlen
        subst hrest
        have hstep : QStep s (finishScript s [] [] c) :=
          QStep.finish s [] [] c (by simpa using hr)
        obtain ⟨t, hsteps, hdr, hid⟩ :=
          qdrain_idle (finishScript s [] [] c).pending.length
            (finishScript s [] [] c) rfl (qinv_step hinv hstep)
            (by simp [finishScript])
        exact ⟨t, Relation.ReflTransGen.head hstep hsteps, hdr,
          by simpa [finishScript] using hid⟩
  · exact qdrain_idle s.pending.length s rfl hinv (by simpa using hflag)

/-- C1: For every sequence of submissions to the command queue, in every
reachable executor state at most one external scripting call is live; the
completed, running and pending request ids in order are exactly the
submission ids in submission order (so dequeueing is strictly FIFO, no
queued item is ever dropped before it starts, and completion order is
submission order); and from any reachable state there is an execution in
which all submitted requests complete, in exactly submission order. -/
theorem commandQueue_serial_and_fifo (s : QueueState) (h : QReachable s) :
    s.running.length ≤ 1 ∧
    (s.completed.map Prod.fst ++ s.running.map Prod.fst ++ s.pending.map Prod.fst
      = List.range s.nextId) ∧
    s.completed.map Prod.fst = List.range s.completed.length ∧
    ∃ t, QSteps s t ∧ QDrained t ∧ t.nextId = s.nextId ∧
      t.completed.map Prod.fst = List.range s.nextId := by
  have hinv := qinv_reachable h
  obtain ⟨h1, h2⟩ := hinv
  refine ⟨?_, h2, ?_, ?_⟩
  · rw [h1]; split <;> omega
  · -- the completed prefix of the id sequence is `0, …, k-1`
    have h2' := h2
    rw [List.append_assoc] at h2'
    have htake : (List.range s.nextId).take (s.completed.map Prod.fst).length
        = s.completed.map Prod.fst := by
      rw [← h2']
      exact List.take_left _ _
    have hle : (s.completed.map Prod.fst).length ≤ s.nextId := by
      have := congrArg List.length h2'
      simp only [List.length_append, List.length_range] at this
      omega
    rw [List.take_range] at htake
    calc s.completed.map Prod.fst
        = List.range (min (s.completed.map Prod.fst).length s.nextId) := htake.symm
      _ = List.range s.completed.length := by
          rw [Nat.min_eq_left hle, List.length_map]
  · obtain ⟨t, hsteps, hdr, hid⟩ := qdrain s ⟨h1, h2⟩
    refine ⟨t, hsteps, hdr, hid, ?_⟩
    have hinvt := qinv_steps ⟨h1, h2⟩ hsteps
    have h2t := hinvt.2
    rw [hdr.1, hdr.2.1, hid] at h2t
    simpa using h2t

/-- Witness for C1: the state reached by two back-to-back submissions is
reachable, and the theorem's conclusions hold there. -/
theorem commandQueue_serial_and_fifo_witness :
    ∃ s, QReachable s ∧
      (s.running.length ≤ 1 ∧
       (s.completed.map Prod.fst ++ s.running.map Prod.fst ++ s.pending.map Prod.fst
         = List.range s.nextId) ∧
       s.completed.map Prod.fst = List.range s.completed.length ∧
       ∃ t, QSteps s t ∧ QDrained t ∧ t.nextId = s.nextId ∧
         t.completed.map Prod.fst = List.range s.nextId) := by
  refine ⟨runAppleScript (runAppleScript initQueue (.ret 0 "ok" "" 10)) .hangs,
    ?_, ?_⟩
  · exact Relation.ReflTransGen.head (QStep.submit initQueue (.ret 0 "ok" "" 10))
      (Relation.ReflTransGen.single
        (QStep.submit (runAppleScript initQueue (.ret 0 "ok" "" 10)) .hangs))
  · exact commandQueue_serial_and_fifo _
      (Relation.ReflTransGen.head (QStep.submit initQueue (.ret 0 "ok" "" 10))
        (Relation.ReflTransGen.single
          (QStep.submit (runAppleScript initQueue (.ret 0 "ok" "" 10)) .hangs)))

/-- An external call that does not finish within the timeout budget:
either it hangs forever, or it would close only after
`OSASCRIPT_TIMEOUT_MS` has elapsed. -/
def timesOut : ExtBehavior → Bool
  | .ret _ _ _ duration => decide (OSASCRIPT_TIMEOUT_MS < duration)
  | .hangs => true
  | .spawnErr _ => false

/-- C2: the timeout budget is the fixed 3000 ms; every external call that
does not finish within it is forcibly terminated (SIGKILL) and its
callback resolves with the `Timeout` error and empty output; and whenever
such a call's completion handler fires with another request queued, the
scheduled `processScriptQueue` immediately starts that next request. -/
theorem timeout_terminates_and_queue_proceeds :
    OSASCRIPT_TIMEOUT_MS = 3000 ∧
    (∀ b : ExtBehavior, timesOut b = true →
      killedOf b = true ∧ outcomeOf b = (some .timeout, "")) ∧
    (∀ (s : QueueState) (c j : Nat × ExtBehavior) (rest : List (Nat × ExtBehavior)),
      s.running = [c] → s.pending = j :: rest →
      ∃ t, QSteps s t ∧ t.running = [j] ∧ t.pending = rest ∧
        t.completed = s.completed ++ [(c.1, outcomeOf c.2)]) := by
  refine ⟨rfl, ?_, ?_⟩
  · intro b hb
    cases b with
    | ret code stdout stderr duration =>
        simp [timesOut] at hb
        constructor
        · simp [killedOf, hb]
        · simp [outcomeOf, hb]
    | hangs => exact ⟨rfl, rfl⟩
    | spawnErr msg => simp [timesOut] at hb
  · intro s c j rest hrun hpend
    have hstep1 : QStep s (finishScript s [] [] c) :=
      QStep.finish s [] [] c (by simpa using hrun)
    have hstep2 : QStep (finishScript s [] [] c)
        (processScriptQueue (finishScript s [] [] c)) :=
      QStep.tick _
    refine ⟨processScriptQueue (finishScript s [] [] c),
      Relation.ReflTransGen.head hstep1 (Relation.ReflTransGen.single hstep2),
      ?_, ?_, ?_⟩ <;>
      simp [processScriptQueue, finishScript, hpend]

/-- Witness for C2: a hanging call is killed and resolves `Timeout` with
empty output, and in a concrete state with one hung running request and
one queued request, the queue proceeds to the queued request. -/
theorem timeout_terminates_and_queue_proceeds_witness :
    (timesOut .hangs = true ∧
      killedOf .hangs = true ∧ outcomeOf .hangs = (some .timeout, "")) ∧
    (∃ t, QSteps
        { pending := [(1, .ret 0 "out" "" 5)], running := [(0, .hangs)],
          isScriptRunning := true, completed := [], nextId := 2 } t ∧
      t.running = [(1, .ret 0 "out" "" 5)] ∧ t.pending = [] ∧
      t.completed = [] ++ [((0 : Nat), outcomeOf .hangs)]) := by
  constructor
  · exact ⟨rfl, timeout_terminates_and_queue_proceeds.2.1 .hangs rfl⟩
  · exact timeout_terminates_and_queue_proceeds.2.2
      { pending := [(1, .ret 0 "out" "" 5)], running := [(0, .hangs)],
        isScriptRunning := true, completed := [], nextId := 2 }
      (0, .hangs) (1, .ret 0 "out" "" 5) [] rfl rfl

/-! ## Workspace path parsing (parseZedWorkspaces) -/

/-- Node's `path.basename` (POSIX): drop trailing slashes, then take the
part after the last remaining slash; empty when nothing remains. -/
def basename (p : String) : String :=
  String.mk (((p.toList.reverse.dropWhile (· = '/')).takeWhile (· ≠ '/')).reverse)

/-- JS `String.prototype.trim()`: strip whitespace from both ends. -/
def jsTrim (s : String) : String :=
  String.mk (((s.toList.dropWhile Char.isWhitespace).reverse.dropWhile
    Char.isWhitespace).reverse)

/-- Left-to-right scan of JS `String.prototype.split(sep)` for a nonempty
separator, with explicit fuel bounding the number of characters examined:
`cur` is the reversed current field. -/
def jsSplitAux (sep : List Char) : Nat → List Char → List Char → List (List Char)
  | 0, cur, _ => [cur.reverse]
  | _ + 1, cur, [] => [cur.reverse]
  | fuel + 1, cur, c :: cs =>
      if sep.isPrefixOf (c :: cs) then
        cur.reverse :: jsSplitAux sep fuel [] ((c :: cs).drop sep.length)
      else jsSplitAux sep fuel (c :: cur) cs

/-- JS `String.prototype.split(sep)` for a nonempty separator. -/
def jsSplit (sep s : String) : List String :=
  (jsSplitAux sep.toList s.toList.length [] s.toList).map String.mk

/-- JS truthiness of `mapping[name]` / optional string fields: present and
nonempty. -/
def jsTruthy : Option String → Bool
  | some s => s ≠ ""
  | none => false

/-- `if (!mapping[name]) mapping[name] = p` on a plain object, as an
association list in insertion order. -/
def insertIfAbsent (m : List (String × String)) (key val : String) :
    List (String × String) :=
  if jsTruthy (m.lookup key) then m else m ++ [(key, val)]

/-- The `forEach` body of `parseZedWorkspaces` folded over the lines. -/
def parseLines (lines : List String) : List (String × String) :=
  lines.foldl (fun m p => if p = "" then m else insertIfAbsent m (basename p) p) []

/-- `parseZedWorkspaces(raw)`: trim, split on newlines, and record the
first path for each derived basename. -/
def parseZedWorkspaces (raw : String) : List (String × String) :=
  parseLines (jsSplit "\n" (jsTrim raw))

/-! ## Workspace path cache (refreshZedWorkspaces / getZedWorkspacesCached /
getZedWorkspacesFresh) -/

/-- `ZED_WORKSPACE_CACHE_TTL_MS` from the source (60 s). -/
def ZED_WORKSPACE_CACHE_TTL_MS : Nat := 60000

/-- The module-level cache state: `zedWorkspaceCache` (mapping and
`lastUpdated`), the stored `zedWorkspaceRefreshPromise` (identified by the
index of the query it wraps, `none` when null), and a counter of external
database queries issued so far. -/
structure CacheState where
  mapping : List (String × String)
  lastUpdated : Nat
  refreshPromise : Option Nat
  queriesIssued : Nat
deriving DecidableEq, Repr

/-- The staleness test
`!zedWorkspaceCache.lastUpdated || (now - lastUpdated > TTL)`. -/
def isStale (now : Nat) (s : CacheState) : Bool :=
  s.lastUpdated == 0 || decide (ZED_WORKSPACE_CACHE_TTL_MS < now - s.lastUpdated)

/-- `refreshZedWorkspaces()`: if a refresh promise is stored, return it;
otherwise issue a new external database query, store its promise, and
return it. The returned `Nat` identifies the promise the caller awaits. -/
def refreshZedWorkspaces (s : CacheState) : CacheState × Nat :=
  match s.refreshPromise with
  | some q => (s, q)
  | none =>
      ({ s with refreshPromise := some s.queriesIssued,
                queriesIssued := s.queriesIssued + 1 },
       s.queriesIssued)

/-- The `exec` callback of the refresh: on error (`res = none`) clear the
stored promise and resolve with the previous mapping, leaving the cache
untouched; on success parse the output (empty output means empty mapping),
replace the cache, stamp `lastUpdated`, clear the stored promise, and
resolve with the new mapping. -/
def completeRefresh (s : CacheState) (res : Option String) (now : Nat) :
    CacheState × List (String × String) :=
  match res with
  | none => ({ s with refreshPromise := none }, s.mapping)
  | some stdout =>
      let output := jsTrim stdout
      let mapping := if output = "" then [] else parseZedWorkspaces output
      ({ s with mapping := mapping, lastUpdated := now, refreshPromise := none },
       mapping)

/-- `getZedWorkspacesFresh()`: when stale, await the (possibly shared)
refresh promise (`Sum.inl` of its id); otherwise return the cached mapping
immediately (`Sum.inr`). -/
def getZedWorkspacesFresh (now : Nat) (s : CacheState) :
    CacheState × (Nat ⊕ List (String × String)) :=
  if isStale now s then
    let (s', q) := refreshZedWorkspaces s
    (s', Sum.inl q)
  else (s, Sum.inr s.mapping)

/-- `getZedWorkspacesCached()`: when stale, trigger (without awaiting) a
refresh; in all cases return the currently cached mapping immediately. -/
def getZedWorkspacesCached (now : Nat) (s : CacheState) :
    CacheState × List (String × String) :=
  if isStale now s then ((refreshZedWorkspaces s).1, s.mapping)
  else (s, s.mapping)

/-- `k` back-to-back `getZedWorkspacesFresh` callers at time `now`,
returning the final state and each caller's result. -/
def getFreshMany (now : Nat) : Nat → CacheState → CacheState × List (Nat ⊕ List (String × String))
  | 0, s => (s, [])
  | k + 1, s =>
      let (s1, r) := getZedWorkspacesFresh now s
      let (s2, rs) := getFreshMany now k s1
      (s2, r :: rs)

theorem getFreshMany_inflight (now : Nat) (q : Nat) :
    ∀ (k : Nat) (s : CacheState), s.refreshPromise = some q →
      isStale now s = true →
      getFreshMany now k s = (s, List.replicate k (Sum.inl q)) := by
  intro k
  induction k with
  | zero => intro s _ _; rfl
  | succ k ih =>
      intro s hq hstale
      have hfresh : getZedWorkspacesFresh now s = (s, Sum.inl q) := by
        unfold getZedWorkspacesFresh refreshZedWorkspaces
        rw [hq, hstale]
        rfl
      simp only [getFreshMany, hfresh, ih s hq hstale, List.replicate_succ]

/-- C3: when the cache is stale and no refresh is stored, any number of
back-to-back `getZedWorkspacesFresh` callers issue exactly one external
database query; every caller attaches to that same in-flight promise; a
staleness-triggered `getZedWorkspacesCached` during the in-flight refresh
issues no further query; and the stored promise reference is cleared on
completion (success or failure). -/
theorem refresh_single_flight (now k : Nat) (s : CacheState)
    (hstale : isStale now s = true) (hnone : s.refreshPromise = none) :
    (getFreshMany now (k + 1) s).1.queriesIssued = s.queriesIssued + 1 ∧
    (getFreshMany now (k + 1) s).2
      = List.replicate (k + 1) (Sum.inl s.queriesIssued) ∧
    (getFreshMany now (k + 1) s).1.refreshPromise = some s.queriesIssued ∧
    getZedWorkspacesCached now (getFreshMany now (k + 1) s).1
      = ((getFreshMany now (k + 1) s).1, (getFreshMany now (k + 1) s).1.mapping) ∧
    (∀ (res : Option String) (now2 : Nat),
      ((completeRefresh (getFreshMany now (k + 1) s).1 res now2).1).refreshPromise
        = none) := by
  set s1 : CacheState :=
    { s with refreshPromise := some s.queriesIssued,
             queriesIssued := s.queriesIssued + 1 } with hs1
  have h1 : getZedWorkspacesFresh now s = (s1, Sum.inl s.queriesIssued) := by
    unfold getZedWorkspacesFresh refreshZedWorkspaces
    rw [hnone, hstale]
    rfl
  have hstale1 : isStale now s1 = true := by
    unfold isStale at hstale ⊢
    exact hstale
  have hmany : getFreshMany now (k + 1) s
      = (s1, List.replicate (k + 1) (Sum.inl s.queriesIssued)) := by
    simp only [getFreshMany, h1,
      getFreshMany_inflight now s.queriesIssued k s1 rfl hstale1,
      List.replicate_succ]
  rw [hmany]
  refine ⟨rfl, rfl, rfl, ?_, ?_⟩
  · unfold getZedWorkspacesCached refreshZedWorkspaces
    rw [hstale1]
    rfl
  · intro res now2
    cases res <;> rfl

/-- Witness for C3: three concurrent fresh callers on a concrete stale
cache with no stored promise issue one query, share the promise, and the
promise is cleared on completion. -/
theorem refresh_single_flight_witness :
    isStale 70000 ⟨[("a", "/x/a")], 0, none, 0⟩ = true ∧
    (getFreshMany 70000 3 ⟨[("a", "/x/a")], 0, none, 0⟩).1.queriesIssued = 0 + 1 ∧
    (getFreshMany 70000 3 ⟨[("a", "/x/a")], 0, none, 0⟩).2
      = List.replicate 3 (Sum.inl 0) ∧
    (getFreshMany 70000 3 ⟨[("a", "/x/a")], 0, none, 0⟩).1.refreshPromise
      = some 0 := by
  have h := refresh_single_flight 70000 2 ⟨[("a", "/x/a")], 0, none, 0⟩
    (by decide) rfl
  exact ⟨by decide, h.1, h.2.1, h.2.2.1⟩

/-- C4: a failed refresh (external database query error) resolves with the
previous mapping, leaves the cached mapping and `lastUpdatedAt` unchanged,
clears the stored promise, and a subsequent `getZedWorkspacesCached`
returns the same mapping as before the refresh attempt. -/
theorem failed_refresh_preserves_cache (s : CacheState) (now now2 : Nat) :
    (completeRefresh s none now).2 = s.mapping ∧
    (completeRefresh s none now).1.mapping = s.mapping ∧
    (completeRefresh s none now).1.lastUpdated = s.lastUpdated ∧
    (completeRefresh s none now).1.refreshPromise = none ∧
    (getZedWorkspacesCached now2 (completeRefresh s none now).1).2 = s.mapping := by
  refine ⟨rfl, rfl, rfl, rfl, ?_⟩
  unfold getZedWorkspacesCached
  split <;> rfl

/-! ## Properties of parseZedWorkspaces -/

/-- Line `p` is a nonempty line whose derived basename is `key`. -/
def matchesName (key p : String) : Bool :=
  (!(p == "")) && (basename p == key)

theorem lookup_append_single (acc : List (String × String)) (k v key : String) :
    (acc ++ [(k, v)]).lookup key
      = (acc.lookup key).orElse (fun _ => if key == k then some v else none) := by
  induction acc with
  | nil => cases h : (key == k) <;> simp [List.lookup, h, Option.orElse]
  | cons a acc ih =>
      cases h : (key == a.1) <;> simp [List.lookup, h, ih, Option.orElse]

theorem lookup_mem {acc : List (String × String)} {key v : String}
    (h : acc.lookup key = some v) : (key, v) ∈ acc := by
  induction acc with
  | nil => simp [List.lookup] at h
  | cons a acc ih =>
      rw [List.lookup] at h
      cases hk : (key == a.1) with
      | true =>
          rw [hk] at h
          simp at h
          have : key = a.1 := eq_of_beq hk
          subst h
          rw [this]
          simp
      | false =>
          rw [hk] at h
          simp at h
          exact List.mem_cons_of_mem _ (ih h)

theorem parseLines_from_lookup :
    ∀ (lines : List String) (acc : List (String × String)),
      (∀ kv ∈ acc, kv.2 ≠ "") → ∀ key,
      (lines.foldl
          (fun m p => if p = "" then m else insertIfAbsent m (basename p) p)
          acc).lookup key
        = (acc.lookup key).orElse (fun _ => lines.find? (matchesName key)) := by
  intro lines
  induction lines with
  | nil =>
      intro acc _ key
      simp only [List.foldl_nil, List.find?_nil]
      cases acc.lookup key <;> rfl
  | cons p rest ih =>
      intro acc hgood key
      by_cases hp : p = ""
      · subst hp
        rw [List.foldl_cons, if_pos rfl, ih acc hgood key,
          List.find?_cons_of_neg _ (by simp [matchesName])]
      · rw [List.foldl_cons, if_neg hp]
        by_cases htr : jsTruthy (acc.lookup (basename p)) = true
        · -- name already mapped: map unchanged
          have hacc : insertIfAbsent acc (basename p) p = acc := by
            simp [insertIfAbsent, htr]
          rw [hacc, ih acc hgood key]
          by_cases hkey : key = basename p
          · cases hl : acc.lookup key with
            | none =>
                rw [hkey] at hl
                simp [jsTruthy, hl] at htr
            | some v => simp [hl, Option.orElse]
          · have hm : matchesName key p = false := by
              simp only [matchesName, Bool.and_eq_false_iff]
              right
              simp only [beq_eq_false_iff_ne, ne_eq]
              intro h
              exact hkey h.symm
            rw [List.find?_cons_of_neg _ (by simp [hm])]
        · -- name not yet mapped: entry appended
          have hnone : acc.lookup (basename p) = none := by
            cases hl : acc.lookup (basename p) with
            | none => rfl
            | some v =>
                have hv : v ≠ "" := hgood (basename p, v) (lookup_mem hl)
                simp [jsTruthy, hl, hv] at htr
          have hacc : insertIfAbsent acc (basename p) p
              = acc ++ [(basename p, p)] := by
            simp [insertIfAbsent, htr]
          rw [hacc]
          have hgood' : ∀ kv ∈ acc ++ [(basename p, p)], kv.2 ≠ "" := by
            intro kv hkv
            rcases List.mem_append.mp hkv with h | h
            · exact hgood kv h
            · simp at h
              rw [h]
              exact hp
          rw [ih _ hgood' key, lookup_append_single]
          by_cases hkey : key = basename p
          · have hm : matchesName key p = true := by
              simp [matchesName, hp, hkey]
            rw [List.find?_cons_of_pos _ hm, hkey, hnone]
            simp [Option.orElse]
          · have hne : (key == basename p) = false := by
              simp [hkey]
            have hm : matchesName key p = false := by
              simp only [matchesName, Bool.and_eq_false_iff]
              right
              simp only [beq_eq_false_iff_ne, ne_eq]
              intro h
              exact hkey h.symm
            rw [List.find?_cons_of_neg _ (by simp [hm]), hne]
            cases acc.lookup key <;> simp [Option.orElse]

theorem parseLines_from_mem :
    ∀ (lines : List String) (acc : List (String × String)) (kv : String × String),
      kv ∈ lines.foldl
          (fun m p => if p = "" then m else insertIfAbsent m (basename p) p) acc →
      kv ∈ acc ∨ (kv.2 ∈ lines ∧ kv.2 ≠ "" ∧ basename kv.2 = kv.1) := by
  intro lines
  induction lines with
  | nil => intro acc kv h; exact Or.inl h
  | cons p rest ih =>
      intro acc kv h
      simp only [List.foldl_cons] at h
      by_cases hp : p = ""
      · rw [if_pos hp] at h
        rcases ih acc kv h with h' | h'
        · exact Or.inl h'
        · exact Or.inr ⟨List.mem_cons_of_mem _ h'.1, h'.2⟩
      · rw [if_neg hp] at h
        rcases ih _ kv h with h' | h'
        · unfold insertIfAbsent at h'
          split at h'
          · exact Or.inl h'
          · rcases List.mem_append.mp h' with h'' | h''
            · exact Or.inl h''
            · simp at h''
              subst h''
              exact Or.inr ⟨List.mem_cons_self _ _, hp, rfl⟩
        · exact Or.inr ⟨List.mem_cons_of_mem _ h'.1, h'.2⟩

/-- C5: for every raw newline-delimited workspace-path output, the parsed
mapping sends every key to the first nonempty line whose basename is that
key (first occurrence wins, later duplicates discarded); each nonempty
line's basename is present in the mapping; and every mapping entry comes
from a nonempty line whose basename is its key (empty lines produce no
entry). -/
theorem parseZedWorkspaces_first_occurrence_wins (raw : String) :
    (∀ key, (parseZedWorkspaces raw).lookup key
      = (jsSplit "\n" (jsTrim raw)).find? (matchesName key)) ∧
    (∀ p ∈ jsSplit "\n" (jsTrim raw), p ≠ "" →
      ((parseZedWorkspaces raw).lookup (basename p)).isSome) ∧
    (∀ k v, (k, v) ∈ parseZedWorkspaces raw →
      v ∈ jsSplit "\n" (jsTrim raw) ∧ v ≠ "" ∧ basename v = k) := by
  have hkey : ∀ key, (parseZedWorkspaces raw).lookup key
      = (jsSplit "\n" (jsTrim raw)).find? (matchesName key) := by
    intro key
    have := parseLines_from_lookup (jsSplit "\n" (jsTrim raw)) [] (by simp) key
    simpa [parseZedWorkspaces, parseLines, List.lookup, Option.orElse] using this
  refine ⟨hkey, ?_, ?_⟩
  · intro p hp hne
    rw [hkey (basename p), List.find?_isSome]
    exact ⟨p, hp, by simp [matchesName, hne]⟩
  · intro k v hkv
    have := parseLines_from_mem (jsSplit "\n" (jsTrim raw)) [] (k, v) hkv
    simpa using this

/-- Witness for C5: on `"/a/foo\n/b/foo\n\n/c/bar"` the name `foo` is
mapped, and it maps to the first occurrence `/a/foo`. -/
theorem parseZedWorkspaces_first_occurrence_wins_witness :
    ("/a/foo" ∈ jsSplit "\n" (jsTrim "/a/foo\n/b/foo\n\n/c/bar")) ∧
    ((parseZedWorkspaces "/a/foo\n/b/foo\n\n/c/bar").lookup
      (basename "/a/foo")).isSome ∧
    (parseZedWorkspaces "/a/foo\n/b/foo\n\n/c/bar").lookup "foo"
      = some "/a/foo" := by
  refine ⟨by decide, ?_, by decide⟩
  exact (parseZedWorkspaces_first_occurrence_wins
    "/a/foo\n/b/foo\n\n/c/bar").2.1 "/a/foo" (by decide) (by decide)

/-! ## Window reconciler (getZedWindows) -/

/-- One reconciled window entry: the full window title (used for
AppleScript matching), the project path from the cache, and the display
name. -/
structure LiveWindow where
  windowName : String
  path : Option String
  displayName : String
deriving DecidableEq, Repr

/-- The disambiguated title given to the `n`-th untitled window. -/
def emptyName (n : Nat) : String :=
  "empty project (" ++ toString n ++ ")"

/-- `windowName.includes(' — ') ? windowName.split(' — ')[0] : windowName`. -/
def projectNameOf (w : String) : String :=
  match jsSplit " — " w with
  | first :: _ :: _ => first
  | _ => w

/-- `workspaces[projectName] || null`. -/
def lookupPath (ws : List (String × String)) (name : String) : Option String :=
  match ws.lookup name with
  | some v => if v = "" then none else some v
  | none => none

/-- The `.map` body of `getZedWindows`, with the running `emptyCount`. -/
def reconcileTitles (ws : List (String × String)) :
    List String → Nat → List LiveWindow
  | [], _ => []
  | t :: ts, emptyCount =>
      if t = "empty project" then
        { windowName := emptyName (emptyCount + 1), path := none,
          displayName := emptyName (emptyCount + 1) }
          :: reconcileTitles ws ts (emptyCount + 1)
      else
        { windowName := t, path := lookupPath ws (projectNameOf t),
          displayName := projectNameOf t }
          :: reconcileTitles ws ts emptyCount

/-- `getZedWindows()` as a function of the command-queue result
`(err, stdout)` and the cached workspace mapping: on error or empty
(trimmed) output resolve `[]`; otherwise split the raw title list on
`", "`, drop empty fragments, and reconcile. -/
def getZedWindows (err : Bool) (stdout : String)
    (ws : List (String × String)) : List LiveWindow :=
  if err || (jsTrim stdout == "") then []
  else reconcileTitles ws ((jsSplit ", " (jsTrim stdout)).filter (fun n => n ≠ "")) 0

/-- Number of untitled-sentinel titles in a list. -/
def countEmpty (ts : List String) : Nat :=
  ts.countP (fun t => t == "empty project")

theorem reconcileTitles_length (ws : List (String × String)) :
    ∀ (ts : List String) (ec : Nat), (reconcileTitles ws ts ec).length = ts.length := by
  intro ts
  induction ts with
  | nil => intro ec; rfl
  | cons t ts ih =>
      intro ec
      unfold reconcileTitles
      split <;> simp [ih]

/-- C6 counterexample: on the window-title list `["myapp — main.rs",
"myapp — lib.rs", "empty project", "empty project"]` the reconciler does
NOT yield exactly one entry for the project name `myapp`. -/
theorem getZedWindows_myapp_not_single :
    ¬ ((getZedWindows false
        "myapp — main.rs, myapp — lib.rs, empty project, empty project"
        [("myapp", "/Users/x/myapp")]).filter
          (fun w => w.displayName == "myapp")).length = 1 := by
  decide

/-- C6 (amended): on that input the reconciler yields one entry per
window: two entries with display name `myapp` (one per open file), each
with the path resolved via the cached mapping, and two entries named
`empty project (1)` and `empty project (2)`, both with `path = null`. -/
theorem getZedWindows_myapp_reconciliation :
    getZedWindows false
        "myapp — main.rs, myapp — lib.rs, empty project, empty project"
        [("myapp", "/Users/x/myapp")]
      = [{ windowName := "myapp — main.rs", path := some "/Users/x/myapp",
           displayName := "myapp" },
         { windowName := "myapp — lib.rs", path := some "/Users/x/myapp",
           displayName := "myapp" },
         { windowName := "empty project (1)", path := none,
           displayName := "empty project (1)" },
         { windowName := "empty project (2)", path := none,
           displayName := "empty project (2)" }] := by
  decide

/-- C7: a command-queue error yields the empty window list; empty
(whitespace-only) title output — the editor not running — yields the empty
window list, and neither raises an error (the function is total); and in a
reconciled list the untitled window following `k` earlier untitled windows
receives 1-based disambiguation index `k + 1`, in first-seen order within
the single call. -/
theorem listWindows_errors_empty_and_untitled_indices :
    (∀ stdout ws, getZedWindows true stdout ws = []) ∧
    (∀ stdout ws, jsTrim stdout = "" → getZedWindows false stdout ws = []) ∧
    (∀ ws ts1 ts2 ec,
      (reconcileTitles ws (ts1 ++ "empty project" :: ts2) ec)[ts1.length]?
        = some { windowName := emptyName (ec + countEmpty ts1 + 1), path := none,
                 displayName := emptyName (ec + countEmpty ts1 + 1) }) := by
  refine ⟨?_, ?_, ?_⟩
  · intro stdout ws
    simp [getZedWindows]
  · intro stdout ws h
    simp [getZedWindows, h]
  · intro ws ts1
    induction ts1 with
    | nil =>
        intro ts2 ec
        simp [reconcileTitles, countEmpty]
    | cons t ts1 ih =>
        intro ts2 ec
        by_cases ht : t = "empty project"
        · rw [List.cons_append, reconcileTitles, if_pos ht, List.length_cons,
            List.getElem?_cons_succ, ih ts2 (ec + 1)]
          have hc : countEmpty (t :: ts1) = countEmpty ts1 + 1 := by
            simp [countEmpty, List.countP_cons, ht]
          rw [hc]
          have : ec + 1 + countEmpty ts1 + 1 = ec + (countEmpty ts1 + 1) + 1 := by
            omega
          rw [this]
        · rw [List.cons_append, reconcileTitles, if_neg ht, List.length_cons,
            List.getElem?_cons_succ, ih ts2 ec]
          have hc : countEmpty (t :: ts1) = countEmpty ts1 := by
            simp [countEmpty, List.countP_cons, ht]
          rw [hc]

/-- Witness for C7: concrete instances — an errored call and a blank
output both give `[]`, and in `["a", "empty project", "empty project"]`
the second untitled window (one earlier untitled) gets index 2. -/
theorem listWindows_errors_empty_and_untitled_indices_witness :
    getZedWindows true "x, y" [] = [] ∧
    jsTrim "  " = "" ∧
    getZedWindows false "  " [] = [] ∧
    (reconcileTitles [] (["a", "empty project"] ++ "empty project" :: []) 0)[
        (["a", "empty project"] : List String).length]?
      = some { windowName := emptyName (0 + countEmpty ["a", "empty project"] + 1),
               path := none,
               displayName := emptyName (0 + countEmpty ["a", "empty project"] + 1) } := by
  refine ⟨listWindows_errors_empty_and_untitled_indices.1 "x, y" [], by decide,
    listWindows_errors_empty_and_untitled_indices.2.1 "  " [] (by decide),
    listWindows_errors_empty_and_untitled_indices.2.2 [] ["a", "empty project"] [] 0⟩

/-- C10 (implicit): the reconciler splits the raw title output on the
literal two-character delimiter `", "` with no escaping, so the reconciled
list has one entry per nonempty fragment; in particular a single window
whose own title contains `", "` produces multiple entries, and no parse
failure is ever reported (the function is total and returns a list). -/
theorem comma_space_title_splits :
    (∀ ws t, jsTrim t = t →
      (getZedWindows false t ws).length
        = ((jsSplit ", " t).filter (fun n => n ≠ "")).length) ∧
    (getZedWindows false "hello, world — a.rs" []
      = [{ windowName := "hello", path := none, displayName := "hello" },
         { windowName := "world — a.rs", path := none, displayName := "world" }]) ∧
    1 < (getZedWindows false "hello, world — a.rs" []).length := by
  refine ⟨?_, by decide, by decide⟩
  intro ws t ht
  by_cases h0 : t = ""
  · subst h0
    rfl
  · unfold getZedWindows
    rw [ht]
    have : (t == "") = false := by
      simp [h0]
    rw [this]
    simp only [Bool.false_or, if_neg Bool.false_ne_true]
    exact reconcileTitles_length ws _ _

/-- Witness for C10: the fragment-count identity evaluated on the concrete
single-window title `"hello, world — a.rs"`. -/
theorem comma_space_title_splits_witness :
    jsTrim "hello, world — a.rs" = "hello, world — a.rs" ∧
    (getZedWindows false "hello, world — a.rs" []).length
      = ((jsSplit ", " "hello, world — a.rs").filter (fun n => n ≠ "")).length := by
  exact ⟨by decide, comma_space_title_splits.1 [] "hello, world — a.rs" (by decide)⟩

/-! ## Activation resolver (activateZedWindowByName / open-project) -/

/-- The regex test `^empty project \((\d+)\)$` with `parseInt` of the
captured digits. -/
def matchEmptyIndex (w : String) : Option Nat :=
  let pre := "empty project (".toList
  let cs := w.toList
  if pre.isPrefixOf cs && [')'].isSuffixOf cs then
    let digits := (cs.drop pre.length).dropLast
    if (!digits.isEmpty) && digits.all Char.isDigit then
      some (digits.foldl (fun n c => n * 10 + (c.toNat - '0'.toNat)) 0)
    else none
  else none

/-- The AppleScript per-window condition: `name of w is "<candidate>" or
name of w starts with "<candidate> — "`. -/
def matchTitle (candidate t : String) : Bool :=
  (t == candidate) || (candidate ++ " — ").toList.isPrefixOf t.toList

/-- The AppleScript `repeat` loop of the named-window raise script: raise
the first window satisfying `matchTitle`, returning its position; `none`
when the loop falls through without raising anything. -/
def asRaiseByName (candidate : String) : List String → Nat → Option Nat
  | [], _ => none
  | t :: ts, i =>
      if matchTitle candidate t then some i
      else asRaiseByName candidate ts (i + 1)

/-- The AppleScript `repeat` loop of the untitled-window raise script:
count occurrences of the sentinel title and raise the one whose occurrence
count equals the requested index. -/
def asRaiseEmpty (index : Nat) : List String → Nat → Nat → Option Nat
  | [], _, _ => none
  | t :: ts, emptyCount, i =>
      if t = "empty project" then
        if emptyCount + 1 = index then some i
        else asRaiseEmpty index ts (emptyCount + 1) (i + 1)
      else asRaiseEmpty index ts emptyCount (i + 1)

/-- `activateZedWindowByName(windowName)` acting on the list of open
window titles: the result is the position of the raised window, `none`
when nothing is raised (silent no-op). -/
def activateZedWindowByName (windowName : String) (titles : List String) :
    Option Nat :=
  match matchEmptyIndex windowName with
  | some idx => asRaiseEmpty idx titles 0 0
  | none => asRaiseByName windowName titles 0

/-- The `open-project` IPC handler's candidate:
`pathOrName && pathOrName.startsWith('/')` reduces a path to its
basename. -/
def openProjectCandidate (pathOrName : String) : String :=
  match pathOrName.toList with
  | '/' :: _ => basename pathOrName
  | _ => pathOrName

/-- The `open-project` IPC handler acting on the open window titles. -/
def openProject (pathOrName : String) (titles : List String) : Option Nat :=
  activateZedWindowByName (openProjectCandidate pathOrName) titles

theorem asRaiseByName_none_iff (c : String) :
    ∀ (ts : List String) (i : Nat),
      asRaiseByName c ts i = none ↔ ∀ t ∈ ts, matchTitle c t = false := by
  intro ts
  induction ts with
  | nil => intro i; simp [asRaiseByName]
  | cons t ts ih =>
      intro i
      by_cases h : matchTitle c t
      · simp [asRaiseByName, h]
      · simp only [asRaiseByName, if_neg h, ih (i + 1), List.mem_cons]
        constructor
        · intro hall u hu
          rcases hu with hu | hu
          · rw [hu]
            exact Bool.eq_false_iff.mpr h
          · exact hall u hu
        · intro hall u hu
          exact hall u (Or.inr hu)

theorem asRaiseByName_some (c : String) :
    ∀ (ts : List String) (i j : Nat),
      asRaiseByName c ts i = some j →
      i ≤ j ∧ (∀ t ∈ ts.take (j - i), matchTitle c t = false) ∧
      ∃ t, (ts.drop (j - i)).head? = some t ∧ matchTitle c t = true := by
  intro ts
  induction ts with
  | nil => intro i j h; simp [asRaiseByName] at h
  | cons t ts ih =>
      intro i j h
      by_cases hm : matchTitle c t
      · rw [asRaiseByName, if_pos hm] at h
        have : i = j := by simpa using h
        subst this
        refine ⟨Nat.le_refl i, ?_, ⟨t, ?_, hm⟩⟩
        · simp
        · simp
      · rw [asRaiseByName, if_neg hm] at h
        obtain ⟨hle, htake, hdrop⟩ := ih (i + 1) j h
        have hij : i < j := hle
        refine ⟨Nat.le_of_lt hij, ?_, ?_⟩
        · intro u hu
          have hji : j - i = (j - (i + 1)) + 1 := by omega
          rw [hji, List.take_succ_cons] at hu
          rcases List.mem_cons.mp hu with hu | hu
          · rw [hu]
            exact Bool.eq_false_iff.mpr hm
          · exact htake u hu
        · have hji : j - i = (j - (i + 1)) + 1 := by omega
          rw [hji, List.drop_succ_cons]
          exact hdrop

theorem asRaiseEmpty_none (idx : Nat) :
    ∀ (ts : List String) (emptyCount i : Nat),
      (∀ t ∈ ts, (t == "empty project") = false) →
      asRaiseEmpty idx ts emptyCount i = none := by
  intro ts
  induction ts with
  | nil => intro _ _ _; rfl
  | cons t ts ih =>
      intro emptyCount i hall
      have ht : ¬t = "empty project" := by
        have := hall t (List.mem_cons_self t ts)
        simpa using this
      rw [asRaiseEmpty, if_neg ht]
      exact ih emptyCount (i + 1) fun u hu => hall u (List.mem_cons_of_mem _ hu)

/-- C8: the open-project handler reduces a filesystem path to its final
path component as the candidate name; for a candidate not matching the
untitled-index pattern, activation raises exactly the first window whose
title equals the candidate or starts with the candidate followed by
`" — "`; when no window matches — including an untitled index with no
matching occurrence — the call is a silent no-op (`none`, no error). -/
theorem activate_matches_first_or_noop :
    (∀ (p : String) (cs : List Char), p.toList = '/' :: cs →
      openProjectCandidate p = basename p) ∧
    (∀ (w : String) (titles : List String), matchEmptyIndex w = none →
      (activateZedWindowByName w titles = none ↔
        ∀ t ∈ titles, matchTitle w t = false)) ∧
    (∀ (w : String) (titles : List String) (j : Nat), matchEmptyIndex w = none →
      activateZedWindowByName w titles = some j →
      (∀ t ∈ titles.take j, matchTitle w t = false) ∧
      ∃ t, (titles.drop j).head? = some t ∧ matchTitle w t = true) ∧
    (∀ (w : String) (idx : Nat) (titles : List String),
      matchEmptyIndex w = some idx →
      (∀ t ∈ titles, (t == "empty project") = false) →
      activateZedWindowByName w titles = none) := by
  refine ⟨?_, ?_, ?_, ?_⟩
  · intro p cs hp
    unfold openProjectCandidate
    rw [hp]
    rfl
  · intro w titles hnone
    unfold activateZedWindowByName
    rw [hnone]
    exact asRaiseByName_none_iff w titles 0
  · intro w titles j hnone hsome
    unfold activateZedWindowByName at hsome
    rw [hnone] at hsome
    have := asRaiseByName_some w titles 0 j hsome
    simpa using this.2
  · intro w idx titles hsome hall
    unfold activateZedWindowByName
    rw [hsome]
    exact asRaiseEmpty_none idx titles 0 0 hall

/-- Witness for C8: activation of the path `/Users/x/bar` reduces to the
candidate `bar`, which raises the window titled `bar — README.md` (the
first match, at position 1); and `empty project (2)` with no untitled
window open is a silent no-op. -/
theorem activate_matches_first_or_noop_witness :
    openProjectCandidate "/Users/x/bar" = basename "/Users/x/bar" ∧
    openProject "/Users/x/bar" ["baz — q.rs", "bar — README.md"] = some 1 ∧
    (∀ t ∈ (["baz — q.rs"] : List String), matchTitle "bar" t = false) ∧
    activateZedWindowByName "bar" ["baz — q.rs"] = none ∧
    activateZedWindowByName "empty project (2)" ["baz — q.rs"] = none := by
  refine ⟨activate_matches_first_or_noop.1 "/Users/x/bar" "Users/x/bar".toList rfl,
    by decide, by decide, ?_, ?_⟩
  · exact (activate_matches_first_or_noop.2.1 "bar" ["baz — q.rs"]
      (by decide)).mpr (by decide)
  · exact activate_matches_first_or_noop.2.2.2 "empty project (2)" 2
      ["baz — q.rs"] (by decide) (by decide)

/-! ## Project persistence (loadProjects migration) -/

/-- An element of the persisted `projects.json` array as read from disk:
each field may be absent (or JSON `null`, which JS treats the same way
through truthiness). -/
structure RawProject where
  name : Option String
  path : Option String
  displayName : Option String
  color : Option String
deriving DecidableEq, Repr

/-- A project entry in the new format. -/
structure Project where
  path : Option String
  displayName : Option String
  color : Option String
deriving DecidableEq, Repr

/-- The legacy-format test `p.name && !p.path && !p.displayName`. -/
def isLegacy (p : RawProject) : Bool :=
  jsTruthy p.name && !jsTruthy p.path && !jsTruthy p.displayName

/-- The `projects.map` body of `loadProjects`: a legacy entry is migrated
by resolving its name against the fresh workspace mapping
(`workspaces[p.name] || null`); any other entry is normalised to the new
format (`p.path || null`, `p.displayName || p.name`). -/
def migrateProject (workspaces : List (String × String)) (p : RawProject) :
    Project :=
  if isLegacy p then
    { path := match p.name with
        | some n => lookupPath workspaces n
        | none => none,
      displayName := p.name,
      color := p.color }
  else
    { path := if jsTruthy p.path then p.path else none,
      displayName := if jsTruthy p.displayName then p.displayName else p.name,
      color := p.color }

/-- `loadProjects()` on a successfully read file: the migrated list, and
the number of `saveProjects` (disk write) calls it performs. -/
def loadProjects (raws : List RawProject) (workspaces : List (String × String)) :
    List Project × Nat :=
  (raws.map (migrateProject workspaces), if raws.any isLegacy then 1 else 0)

/-- A new-format entry as it reads back from `projects.json` (JSON keeps
`path`/`displayName`/`color`; there is no `name` field). -/
def toRaw (pr : Project) : RawProject :=
  { name := none, path := pr.path, displayName := pr.displayName, color := pr.color }

/-- C9: loading the persisted list `[{ name: "foo" }]` with the fresh
workspace cache mapping `foo -> /Users/x/foo` migrates the entry to
`{ path: "/Users/x/foo", displayName: "foo", color: undefined }` and
writes the migrated list back exactly once; a legacy name the cache does
not resolve migrates with `path = null`; and loading an already-migrated
list performs no further write. -/
theorem loadProjects_migrates_legacy_entries :
    (loadProjects
        [{ name := some "foo", path := none, displayName := none, color := none }]
        [("foo", "/Users/x/foo")]
      = ([{ path := some "/Users/x/foo", displayName := some "foo",
            color := none }], 1)) ∧
    (∀ (n : String) (c : Option String) (ws : List (String × String)),
      ws.lookup n = none →
      migrateProject ws
          { name := some n, path := none, displayName := none, color := c }
        = { path := none, displayName := some n, color := c }) ∧
    (∀ (raws : List RawProject) (ws ws2 : List (String × String)),
      (loadProjects ((loadProjects raws ws).1.map toRaw) ws2).2 = 0) := by
  refine ⟨by decide, ?_, ?_⟩
  · intro n c ws h
    unfold migrateProject
    split
    · simp [lookupPath, h]
    · simp [jsTruthy]
  · intro raws ws ws2
    have hall : ∀ pr : Project, isLegacy (toRaw pr) = false := by
      intro pr
      simp [isLegacy, toRaw, jsTruthy]
    simp only [loadProjects]
    have h2 : ((raws.map (migrateProject ws)).map toRaw).any isLegacy = false := by
      rw [List.any_eq_false]
      intro pr hpr
      rcases List.mem_map.mp hpr with ⟨q, _, rfl⟩
      simp [hall q]
    simp [h2]
    intro x _
    exact hall (migrateProject ws x)

/-- Witness for C9: the cache `[("bar", "/b")]` does not resolve `foo`,
and the legacy entry `{ name: "foo" }` migrates with a null path. -/
theorem loadProjects_migrates_legacy_entries_witness :
    ([("bar", "/b")] : List (String × String)).lookup "foo" = none ∧
    migrateProject [("bar", "/b")]
        { name := some "foo", path := none, displayName := none, color := none }
      = { path := none, displayName := some "foo", color := none } :=
  ⟨by decide, loadProjects_migrates_legacy_entries.2.1 "foo" none
    [("bar", "/b")] (by decide)⟩

end ZedBianjiqi
